import Mathlib

/-!
# Verification of the yt-shortmaker chunk-dispatch pipeline

A shallow embedding, in Lean 4, of the parts of the `yt-shortmaker`
repository that the specification's claims are about:

* `src/video.rs` — the chunk planner `calculate_chunks`, and the
  timestamp codec `format_seconds_to_timestamp` /
  `parse_timestamp_to_seconds`;
* `src/ai/google.rs` — the `GoogleClient` credential pool
  (`get_active_key`, `rotate_key`, `disable_key`) and the sticky
  per-chunk retry loop `process_chunk`;
* `src/main.rs` — the dispatcher loop of `run_processing` (cancellation
  check, per-chunk accumulation, session persistence, HQ-download
  fallback) and `save_session`.

Rust strings that are parsed character by character are modelled as
`List Char`; machine integers (`u64`) are modelled as `Nat` with an
explicit `% 2 ^ 64` at the points where the Rust arithmetic can wrap.
Network and file-system effects are modelled by explicit outcome
scripts and operation traces.
-/

namespace YtShortmaker

/-! ## video.rs: chunk planner

Rust source (`src/video.rs`):
```
pub fn calculate_chunks(total_duration_seconds: u64) -> Vec<(u64, u64)> {
    let chunk_size = 30 * 60;
    let max_last_chunk = 45 * 60;
    let mut chunks = Vec::new();
    let mut current_time = 0;
    while current_time < total_duration_seconds {
        let remaining = total_duration_seconds - current_time;
        if remaining <= max_last_chunk {
            chunks.push((current_time, remaining));
            break;
        } else {
            chunks.push((current_time, chunk_size));
            current_time += chunk_size;
        }
    }
    chunks
}
```
-/

/-- `chunk_size` from `calculate_chunks`: 30 minutes in seconds. -/
def chunk_size : Nat := 30 * 60

/-- `max_last_chunk` from `calculate_chunks`: 45 minutes in seconds. -/
def max_last_chunk : Nat := 45 * 60

/-- The `while` loop of `calculate_chunks`, as a structural recursion on
an explicit iteration budget `fuel`.  The loop variable `current_time`
strictly increases by `chunk_size = 1800` on every non-final iteration,
so any `fuel` with `total - current ≤ fuel * chunk_size` lets the
recursion run to the loop's own exit condition; every lemma below
carries that adequacy hypothesis. -/
def chunksFrom : Nat → Nat → Nat → List (Nat × Nat)
  | 0, _, _ => []
  | fuel + 1, total, current =>
    if current < total then
      if total - current ≤ max_last_chunk then
        [(current, total - current)]
      else
        (current, chunk_size) :: chunksFrom fuel total (current + chunk_size)
    else
      []

/-- `calculate_chunks` from `src/video.rs`: split a total duration into
`(start, length)` segments of 30 minutes each, merging a final remainder
of at most 45 minutes into one last segment.  The fuel
`total / chunk_size + 1` is sufficient because each non-final loop
iteration advances `current` by `chunk_size` seconds. -/
def calculate_chunks (total_duration_seconds : Nat) : List (Nat × Nat) :=
  chunksFrom (total_duration_seconds / chunk_size + 1) total_duration_seconds 0

/-- Contiguity checker: `chained s f segs` holds when the segments in
`segs` are consecutive `(start, length)` pairs, the first starting at
`s`, each subsequent one starting where the previous ended, and the
final one ending exactly at `f`. -/
def chained : Nat → Nat → List (Nat × Nat) → Bool
  | s, f, [] => s == f
  | s, f, (a, l) :: rest => a == s && chained (s + l) f rest

theorem chained_sum (f : Nat) :
    ∀ (L : List (Nat × Nat)) (s : Nat), chained s f L = true →
      s + (L.map Prod.snd).sum = f := by
  intro L
  induction L with
  | nil =>
      intro s h
      simp only [chained, beq_iff_eq] at h
      simp [h]
  | cons p rest ih =>
      intro s h
      obtain ⟨a, l⟩ := p
      simp only [chained, Bool.and_eq_true, beq_iff_eq] at h
      have h2 := ih (s + l) h.2
      simp only [List.map_cons, List.sum_cons]
      omega

theorem chunksFrom_chained :
    ∀ (fuel total current : Nat), total - current ≤ fuel * chunk_size →
      current ≤ total → chained current total (chunksFrom fuel total current) = true := by
  intro fuel
  induction fuel with
  | zero =>
      intro total current hf hc
      simp only [chunksFrom, chained, beq_iff_eq]
      simp only [chunk_size] at hf
      omega
  | succ n ih =>
      intro total current hf hc
      simp only [chunksFrom]
      by_cases h : current < total
      · rw [if_pos h]
        by_cases h2 : total - current ≤ max_last_chunk
        · rw [if_pos h2]
          simp only [chained, Bool.and_eq_true, beq_iff_eq]
          refine ⟨trivial, ?_⟩
          have : current + (total - current) = total := by omega
          simp [this, chained]
        · rw [if_neg h2]
          simp only [chained, Bool.and_eq_true, beq_iff_eq]
          refine ⟨trivial, ?_⟩
          have hlt : current + chunk_size ≤ total := by
            simp only [max_last_chunk] at h2
            simp only [chunk_size]
            omega
          have hfuel : total - (current + chunk_size) ≤ n * chunk_size := by
            simp only [chunk_size] at *
            omega
          exact ih total (current + chunk_size) hfuel hlt
      · rw [if_neg h]
        simp only [chained, beq_iff_eq]
        omega

theorem chunksFrom_len_le :
    ∀ (fuel total current : Nat),
      ∀ p ∈ chunksFrom fuel total current, p.2 ≤ max_last_chunk := by
  intro fuel
  induction fuel with
  | zero =>
      intro total current p hp
      simp [chunksFrom] at hp
  | succ n ih =>
      intro total current p hp
      simp only [chunksFrom] at hp
      by_cases h : current < total
      · rw [if_pos h] at hp
        by_cases h2 : total - current ≤ max_last_chunk
        · rw [if_pos h2] at hp
          simp only [List.mem_singleton] at hp
          subst hp
          exact h2
        · rw [if_neg h2] at hp
          simp only [List.mem_cons] at hp
          rcases hp with hp | hp
          · subst hp
            simp only [chunk_size, max_last_chunk]
            omega
          · exact ih total (current + chunk_size) p hp
      · rw [if_neg h] at hp
        simp at hp

theorem chunksFrom_shape :
    ∀ (fuel total current : Nat), total - current ≤ fuel * chunk_size →
      current < total →
      chunksFrom fuel total current ≠ [] ∧
      (∀ p ∈ (chunksFrom fuel total current).dropLast, p.2 = chunk_size) ∧
      (∀ p, (chunksFrom fuel total current).getLast? = some p →
        0 < p.2 ∧ p.2 ≤ max_last_chunk) := by
  intro fuel
  induction fuel with
  | zero =>
      intro total current hf hc
      simp only [chunk_size] at hf
      omega
  | succ n ih =>
      intro total current hf hc
      simp only [chunksFrom]
      rw [if_pos hc]
      by_cases h2 : total - current ≤ max_last_chunk
      · rw [if_pos h2]
        refine ⟨by simp, by simp, ?_⟩
        intro p hp
        simp only [List.getLast?_singleton, Option.some_inj] at hp
        subst hp
        constructor
        · simp only
          omega
        · exact h2
      · rw [if_neg h2]
        have hlt : current + chunk_size < total := by
          simp only [max_last_chunk] at h2
          simp only [chunk_size]
          omega
        have hfuel : total - (current + chunk_size) ≤ n * chunk_size := by
          simp only [chunk_size] at *
          omega
        obtain ⟨hne, hdrop, hlast⟩ := ih total (current + chunk_size) hfuel hlt
        refine ⟨by simp, ?_, ?_⟩
        · intro p hp
          rw [List.dropLast_cons_of_ne_nil hne] at hp
          rcases List.mem_cons.mp hp with hp | hp
          · subst hp
            rfl
          · exact hdrop p hp
        · intro p hp
          obtain ⟨q, qs, hqe⟩ := List.exists_cons_of_ne_nil hne
          rw [hqe, List.getLast?_cons_cons] at hp
          apply hlast
          rw [hqe]
          exact hp

theorem calculate_chunks_fuel_ok (total : Nat) :
    total - 0 ≤ (total / chunk_size + 1) * chunk_size := by
  simp only [chunk_size]
  omega

theorem calculate_chunks_chained (total : Nat) :
    chained 0 total (calculate_chunks total) = true :=
  chunksFrom_chained (total / chunk_size + 1) total 0 (calculate_chunks_fuel_ok total)
    (by omega)

/-- C1: for every `total_duration ≥ 0`, `calculate_chunks` returns
`(start, length)` segments that are contiguous and non-overlapping
(each starts where the previous one ends, the first at 0, so
`chained 0 total`), whose lengths sum exactly to `total_duration`; no
segment's length exceeds `S + M = chunk_size + max_last_chunk = 4500`
seconds; `total_duration = 0` yields the empty list; and
`0 < total_duration ≤ max_last_chunk = 2700` yields the single segment
`(0, total_duration)`. -/
theorem calculate_chunks_plan_correct (total : Nat) :
    chained 0 total (calculate_chunks total) = true ∧
    ((calculate_chunks total).map Prod.snd).sum = total ∧
    (∀ p ∈ calculate_chunks total, p.2 ≤ chunk_size + max_last_chunk) ∧
    (total = 0 → calculate_chunks total = []) ∧
    (0 < total → total ≤ max_last_chunk → calculate_chunks total = [(0, total)]) := by
  refine ⟨calculate_chunks_chained total, ?_, ?_, ?_, ?_⟩
  · have h := chained_sum total (calculate_chunks total) 0 (calculate_chunks_chained total)
    omega
  · intro p hp
    have := chunksFrom_len_le (total / chunk_size + 1) total 0 p hp
    omega
  · intro h
    subst h
    rfl
  · intro h1 h2
    unfold calculate_chunks
    simp only [chunksFrom]
    rw [if_pos (by omega : (0 : Nat) < total), if_pos (by omega : total - 0 ≤ max_last_chunk)]
    simp

/-- Witness for `calculate_chunks_plan_correct`: instantiated at the
durations 4000 (two segments), 0 (empty) and 2000 (single segment),
discharging every hypothesis concretely. -/
theorem calculate_chunks_plan_correct_witness :
    chained 0 4000 (calculate_chunks 4000) = true ∧
    calculate_chunks 0 = [] ∧
    calculate_chunks 2000 = [(0, 2000)] ∧
    (0, 1800).2 ≤ chunk_size + max_last_chunk :=
  ⟨(calculate_chunks_plan_correct 4000).1,
   (calculate_chunks_plan_correct 0).2.2.2.1 rfl,
   (calculate_chunks_plan_correct 2000).2.2.2.2 (by decide) (by decide),
   (calculate_chunks_plan_correct 4000).2.2.1 (0, 1800) (by decide)⟩

/-- C9: for every `total_duration > 0`, every segment produced by
`calculate_chunks` except the last has length exactly
`chunk_size = 1800` seconds, and the last segment's length is strictly
positive and at most `max_last_chunk = 2700` seconds. -/
theorem calculate_chunks_segment_lengths (total : Nat) (h : 0 < total) :
    calculate_chunks total ≠ [] ∧
    (∀ p ∈ (calculate_chunks total).dropLast, p.2 = chunk_size) ∧
    (∀ p, (calculate_chunks total).getLast? = some p →
      0 < p.2 ∧ p.2 ≤ max_last_chunk) :=
  chunksFrom_shape (total / chunk_size + 1) total 0 (calculate_chunks_fuel_ok total) h

/-- Witness for `calculate_chunks_segment_lengths` at
`total_duration = 4000`, where the plan is `[(0, 1800), (1800, 2200)]`. -/
theorem calculate_chunks_segment_lengths_witness :
    calculate_chunks 4000 ≠ [] ∧
    (1800, 2200).2 ≤ max_last_chunk ∧ (0, 1800).2 = chunk_size :=
  ⟨(calculate_chunks_segment_lengths 4000 (by decide)).1,
   ((calculate_chunks_segment_lengths 4000 (by decide)).2.2 (1800, 2200) (by decide)).2,
   (calculate_chunks_segment_lengths 4000 (by decide)).2.1 (0, 1800) (by decide)⟩
/-! ## video.rs: timestamp codec

Rust source (`src/video.rs`):
```
pub fn format_seconds_to_timestamp(seconds: u64) -> String {
    let hours = seconds / 3600;
    let minutes = (seconds % 3600) / 60;
    let secs = seconds % 60;
    format!("{:02}:{:02}:{:02}", hours, minutes, secs)
}

pub fn parse_timestamp_to_seconds(timestamp: &str) -> Result<u64> {
    let parts: Vec<&str> = timestamp.split(':').collect();
    if parts.len() != 3 {
        return Err(anyhow!("Invalid timestamp format: {}", timestamp));
    }
    let hours: u64 = parts[0].parse().context("Invalid hours")?;
    let minutes: u64 = parts[1].parse().context("Invalid minutes")?;
    let seconds: u64 = parts[2].parse().context("Invalid seconds")?;
    Ok(hours * 3600 + minutes * 60 + seconds)
}
```
Rust `String`s that are inspected character by character are modelled
as `List Char`.  `u64` arithmetic is modelled as `Nat` with an explicit
`% 2 ^ 64` (release-profile wrap-around semantics); for the composed
sum `hours * 3600 + minutes * 60 + seconds` the per-operation wrapping
is equivalent to a single final `% 2 ^ 64`. -/

/-- A Rust `String` viewed as its character sequence. -/
abbrev RsString := List Char

/-- The `u64` modulus. -/
def U64 : Nat := 2 ^ 64

/-- The ASCII digit character for `d % 10`, as produced by Rust's
decimal `Display` formatting. -/
def digitChar (d : Nat) : Char := Char.ofNat (48 + d)

/-- Rust's `is_ascii_digit` test. -/
def isAsciiDigit (c : Char) : Bool := 48 ≤ c.toNat && c.toNat ≤ 57

/-- The decimal digits of `n`, least significant first, produced with an
explicit fuel (any `fuel ≥ n` is adequate since `n / 10 < n`). -/
def natDigitsRevFuel : Nat → Nat → List Char
  | 0, _ => []
  | fuel + 1, n =>
    if n = 0 then [] else digitChar (n % 10) :: natDigitsRevFuel fuel (n / 10)

/-- Rust's decimal rendering `format!("{}", n)` of an unsigned integer. -/
def natDecimal (n : Nat) : RsString :=
  if n = 0 then ['0'] else (natDigitsRevFuel n n).reverse

/-- Rust's `format!("{:02}", n)`: the decimal rendering of `n`,
left-padded with `'0'` to a minimum width of two. -/
def pad2 (n : Nat) : RsString :=
  if n < 10 then '0' :: natDecimal n else natDecimal n

/-- `format_seconds_to_timestamp` from `src/video.rs`. -/
def format_seconds_to_timestamp (seconds : Nat) : RsString :=
  pad2 (seconds / 3600) ++ ':' :: (pad2 (seconds % 3600 / 60) ++ ':' :: pad2 (seconds % 60))

/-- Rust's `str::split(':')`: split at every colon, producing `k + 1`
(possibly empty) parts for `k` colons. -/
def splitColon : RsString → List RsString
  | [] => [[]]
  | c :: rest =>
    if c = ':' then [] :: splitColon rest
    else
      match splitColon rest with
      | [] => [[c]]
      | p :: ps => (c :: p) :: ps

/-- The optional leading `'+'` accepted by Rust's unsigned-integer
`from_str`. -/
def stripPlus (s : RsString) : RsString :=
  match s with
  | c :: rest => if c = '+' then rest else s
  | [] => s

/-- Rust's `str::parse::<u64>()`: an optional leading `'+'`, then one or
more ASCII digits, rejecting values that overflow `u64`. -/
def parse_u64 (s : RsString) : Option Nat :=
  let ds := stripPlus s
  if ds.isEmpty then none
  else if ds.all isAsciiDigit then
    let v := ds.foldl (fun acc c => acc * 10 + (c.toNat - 48)) 0
    if v < U64 then some v else none
  else none

/-- `parse_timestamp_to_seconds` from `src/video.rs`: `none` models the
`Err` result. -/
def parse_timestamp_to_seconds (timestamp : RsString) : Option Nat :=
  let parts := splitColon timestamp
  if parts.length = 3 then
    match parse_u64 (parts.getD 0 []), parse_u64 (parts.getD 1 []),
        parse_u64 (parts.getD 2 []) with
    | some hours, some minutes, some seconds =>
        some ((hours * 3600 + minutes * 60 + seconds) % U64)
    | _, _, _ => none
  else none
theorem digitChar_toNat (d : Nat) (h : d < 10) : (digitChar d).toNat = 48 + d := by
  interval_cases d <;> decide

theorem isAsciiDigit_digitChar (d : Nat) (h : d < 10) :
    isAsciiDigit (digitChar d) = true := by
  interval_cases d <;> decide

theorem natDigitsRevFuel_mem :
    ∀ (fuel n : Nat), n ≤ fuel →
      ∀ c ∈ natDigitsRevFuel fuel n, ∃ d, d < 10 ∧ c = digitChar d := by
  intro fuel
  induction fuel with
  | zero =>
      intro n h c hc
      simp [natDigitsRevFuel] at hc
  | succ f ih =>
      intro n h c hc
      simp only [natDigitsRevFuel] at hc
      by_cases h0 : n = 0
      · rw [if_pos h0] at hc
        simp at hc
      · rw [if_neg h0] at hc
        rcases List.mem_cons.mp hc with hc | hc
        · exact ⟨n % 10, Nat.mod_lt _ (by omega), hc⟩
        · exact ih (n / 10) (by omega) c hc

theorem decValRev_natDigitsRevFuel :
    ∀ (fuel n : Nat), n ≤ fuel →
      (natDigitsRevFuel fuel n).foldr (fun c acc => acc * 10 + (c.toNat - 48)) 0 = n := by
  intro fuel
  induction fuel with
  | zero =>
      intro n h
      simp only [natDigitsRevFuel, List.foldr_nil]
      omega
  | succ f ih =>
      intro n h
      simp only [natDigitsRevFuel]
      by_cases h0 : n = 0
      · rw [if_pos h0]
        simp [h0]
      · rw [if_neg h0]
        simp only [List.foldr_cons]
        rw [ih (n / 10) (by omega)]
        rw [digitChar_toNat (n % 10) (Nat.mod_lt _ (by omega))]
        omega

theorem natDigitsRevFuel_ne_nil (f n : Nat) (h0 : n ≠ 0) (hf : f ≠ 0) :
    natDigitsRevFuel f n ≠ [] := by
  obtain ⟨m, rfl⟩ : ∃ m, f = m + 1 := ⟨f - 1, by omega⟩
  simp [natDigitsRevFuel, h0]

theorem natDecimal_digits (n : Nat) : ∀ c ∈ natDecimal n, isAsciiDigit c = true := by
  intro c hc
  simp only [natDecimal] at hc
  by_cases h0 : n = 0
  · rw [if_pos h0] at hc
    simp only [List.mem_singleton] at hc
    subst hc
    decide
  · rw [if_neg h0] at hc
    rw [List.mem_reverse] at hc
    obtain ⟨d, hd, rfl⟩ := natDigitsRevFuel_mem n n le_rfl c hc
    exact isAsciiDigit_digitChar d hd

theorem natDecimal_ne_nil (n : Nat) : natDecimal n ≠ [] := by
  simp only [natDecimal]
  by_cases h0 : n = 0
  · simp [h0]
  · rw [if_neg h0]
    simpa using natDigitsRevFuel_ne_nil n n h0 h0

theorem foldl_natDecimal (n : Nat) :
    (natDecimal n).foldl (fun acc c => acc * 10 + (c.toNat - 48)) 0 = n := by
  simp only [natDecimal]
  by_cases h0 : n = 0
  · rw [if_pos h0]
    subst h0
    decide
  · rw [if_neg h0]
    rw [List.foldl_reverse]
    exact decValRev_natDigitsRevFuel n n le_rfl

theorem pad2_digits (n : Nat) : ∀ c ∈ pad2 n, isAsciiDigit c = true := by
  intro c hc
  simp only [pad2] at hc
  by_cases h10 : n < 10
  · rw [if_pos h10] at hc
    rcases List.mem_cons.mp hc with hc | hc
    · subst hc
      decide
    · exact natDecimal_digits n c hc
  · rw [if_neg h10] at hc
    exact natDecimal_digits n c hc

theorem pad2_ne_nil (n : Nat) : pad2 n ≠ [] := by
  simp only [pad2]
  by_cases h10 : n < 10
  · simp [h10]
  · rw [if_neg h10]
    exact natDecimal_ne_nil n

theorem isAsciiDigit_ne_colon {c : Char} (h : isAsciiDigit c = true) : c ≠ ':' := by
  intro h2
  subst h2
  simp [isAsciiDigit] at h

theorem isAsciiDigit_ne_plus {c : Char} (h : isAsciiDigit c = true) : c ≠ '+' := by
  intro h2
  subst h2
  simp [isAsciiDigit] at h

theorem pad2_no_colon (n : Nat) : ∀ c ∈ pad2 n, c ≠ ':' :=
  fun c hc => isAsciiDigit_ne_colon (pad2_digits n c hc)

theorem stripPlus_of_digits (s : RsString) (hne : s ≠ [])
    (hd : ∀ c ∈ s, isAsciiDigit c = true) : stripPlus s = s := by
  obtain ⟨c, cs, rfl⟩ := List.exists_cons_of_ne_nil hne
  simp only [stripPlus]
  rw [if_neg (isAsciiDigit_ne_plus (hd c (List.mem_cons_self c cs)))]

theorem parse_u64_of_digits (s : RsString) (hne : s ≠ [])
    (hd : ∀ c ∈ s, isAsciiDigit c = true)
    (hv : s.foldl (fun acc c => acc * 10 + (c.toNat - 48)) 0 < U64) :
    parse_u64 s = some (s.foldl (fun acc c => acc * 10 + (c.toNat - 48)) 0) := by
  simp only [parse_u64, stripPlus_of_digits s hne hd]
  rw [if_neg (by simpa [List.isEmpty_iff] using hne)]
  rw [if_pos (by rw [List.all_eq_true]; exact hd)]
  rw [if_pos hv]

theorem parse_u64_pad2 (n : Nat) (h : n < U64) : parse_u64 (pad2 n) = some n := by
  have hfold : (pad2 n).foldl (fun acc c => acc * 10 + (c.toNat - 48)) 0 = n := by
    simp only [pad2]
    by_cases h10 : n < 10
    · rw [if_pos h10]
      simp only [List.foldl_cons]
      have : (1 : Nat) * 0 = 0 := by norm_num
      show (natDecimal n).foldl (fun acc c => acc * 10 + (c.toNat - 48))
        (0 * 10 + (Char.toNat '0' - 48)) = n
      have h0 : 0 * 10 + (Char.toNat '0' - 48) = 0 := by decide
      rw [h0]
      exact foldl_natDecimal n
    · rw [if_neg h10]
      exact foldl_natDecimal n
  rw [parse_u64_of_digits (pad2 n) (pad2_ne_nil n) (pad2_digits n) (by rw [hfold]; exact h)]
  rw [hfold]

theorem splitColon_no_colon (a : RsString) (ha : ∀ c ∈ a, c ≠ ':') :
    splitColon a = [a] := by
  induction a with
  | nil => simp [splitColon]
  | cons c a ih =>
      simp only [splitColon]
      rw [if_neg (ha c (List.mem_cons_self c a))]
      rw [ih (fun x hx => ha x (List.mem_cons_of_mem c hx))]

theorem splitColon_append (a b : RsString) (ha : ∀ c ∈ a, c ≠ ':') :
    splitColon (a ++ ':' :: b) = a :: splitColon b := by
  induction a with
  | nil => simp [splitColon]
  | cons c a ih =>
      simp only [List.cons_append, splitColon, List.append_eq]
      rw [if_neg (ha c (List.mem_cons_self c a))]
      rw [ih (fun x hx => ha x (List.mem_cons_of_mem c hx))]

/-- Round trip: parsing a formatted `u64` timestamp recovers the value. -/
theorem parse_format_roundtrip (s : Nat) (h : s < U64) :
    parse_timestamp_to_seconds (format_seconds_to_timestamp s) = some s := by
  have hU : (2 : Nat) ^ 64 = U64 := rfl
  have hh : s / 3600 < U64 := lt_of_le_of_lt (Nat.div_le_self s 3600) h
  have hm : s % 3600 / 60 < U64 := by
    have h1 : s % 3600 < 3600 := Nat.mod_lt _ (by norm_num)
    have : s % 3600 / 60 < 3600 := lt_of_le_of_lt (Nat.div_le_self _ 60) h1
    calc s % 3600 / 60 < 3600 := this
      _ < U64 := by rw [← hU]; norm_num
  have hs : s % 60 < U64 := by
    have h1 : s % 60 < 60 := Nat.mod_lt _ (by norm_num)
    calc s % 60 < 60 := h1
      _ < U64 := by rw [← hU]; norm_num
  simp only [format_seconds_to_timestamp, parse_timestamp_to_seconds]
  rw [splitColon_append _ _ (pad2_no_colon _), splitColon_append _ _ (pad2_no_colon _),
    splitColon_no_colon _ (pad2_no_colon _)]
  simp only [List.length_cons, List.length_nil, List.getD_cons_zero, List.getD_cons_succ]
  simp only [if_true]
  rw [parse_u64_pad2 _ hh, parse_u64_pad2 _ hm, parse_u64_pad2 _ hs]
  have harith : s / 3600 * 3600 + s % 3600 / 60 * 60 + s % 60 = s := by omega
  simp only []
  rw [harith, Nat.mod_eq_of_lt h]
/-! ## types.rs: moments, and the timestamp rebasing of
`GoogleClient::analyze_video_internal`

Rust source (`src/ai/google.rs`, end of `analyze_video_internal`):
```
if chunk_start_offset > 0 {
    for moment in moments.iter_mut() {
        let start_secs = parse_timestamp_to_seconds(&moment.start_time).unwrap_or(0)
            + chunk_start_offset;
        let end_secs = parse_timestamp_to_seconds(&moment.end_time).unwrap_or(0)
            + chunk_start_offset;
        moment.start_time = format_seconds_to_timestamp(start_secs);
        moment.end_time = format_seconds_to_timestamp(end_secs);
        for dia in &mut moment.dialogue {
            ... same for dia.start_time / dia.end_time ...
        }
    }
}
```
-/

/-- `DialoguePhrase` from `src/types.rs`. -/
structure DialoguePhrase where
  start_time : RsString
  end_time : RsString
  phrase : RsString
deriving DecidableEq

/-- `VideoMoment` from `src/types.rs`. -/
structure VideoMoment where
  start_time : RsString
  end_time : RsString
  category : RsString
  description : RsString
  dialogue : List DialoguePhrase
deriving DecidableEq

/-- One timestamp-field update of the rebasing loop: parse (defaulting
to 0 on failure), add the chunk offset (wrapping `u64` addition), and
re-render. -/
def rebaseTimestamp (off : Nat) (t : RsString) : RsString :=
  format_seconds_to_timestamp (((parse_timestamp_to_seconds t).getD 0 + off) % U64)

/-- The inner dialogue loop of the rebasing pass. -/
def rebasePhrase (off : Nat) (d : DialoguePhrase) : DialoguePhrase :=
  { d with
    start_time := rebaseTimestamp off d.start_time
    end_time := rebaseTimestamp off d.end_time }

/-- The per-moment body of the rebasing pass. -/
def rebaseMoment (off : Nat) (m : VideoMoment) : VideoMoment :=
  { m with
    start_time := rebaseTimestamp off m.start_time
    end_time := rebaseTimestamp off m.end_time
    dialogue := m.dialogue.map (rebasePhrase off) }

/-- The whole timestamp-rebasing transformation on a single moment,
including the `chunk_start_offset > 0` guard of the source. -/
def rebase (off : Nat) (m : VideoMoment) : VideoMoment :=
  if 0 < off then rebaseMoment off m else m

/-- The rebasing pass over the list of parsed moments, as performed at
the end of `analyze_video_internal`. -/
def rebaseMoments (off : Nat) (ms : List VideoMoment) : List VideoMoment :=
  if 0 < off then ms.map (rebaseMoment off) else ms

theorem parse_timestamp_lt_U64 (t : RsString) (v : Nat)
    (h : parse_timestamp_to_seconds t = some v) : v < U64 := by
  simp only [parse_timestamp_to_seconds] at h
  by_cases hl : (splitColon t).length = 3
  · rw [if_pos hl] at h
    rcases h1 : parse_u64 ((splitColon t).getD 0 []) with _ | a <;> rw [h1] at h
    · simp at h
    · rcases h2 : parse_u64 ((splitColon t).getD 1 []) with _ | b <;> rw [h2] at h
      · simp at h
      · rcases h3 : parse_u64 ((splitColon t).getD 2 []) with _ | c <;> rw [h3] at h
        · simp at h
        · simp only [Option.some_inj] at h
          subst h
          exact Nat.mod_lt _ (by norm_num [U64])
  · rw [if_neg hl] at h
    simp at h

theorem rebaseTimestamp_comp (a b : Nat) (t : RsString) :
    rebaseTimestamp b (rebaseTimestamp a t) = rebaseTimestamp (a + b) t := by
  simp only [rebaseTimestamp]
  rw [parse_format_roundtrip _ (Nat.mod_lt _ (by norm_num [U64]))]
  simp only [Option.getD_some]
  rw [Nat.mod_add_mod]
  rw [Nat.add_assoc]

theorem rebasePhrase_comp (a b : Nat) (d : DialoguePhrase) :
    rebasePhrase b (rebasePhrase a d) = rebasePhrase (a + b) d := by
  simp only [rebasePhrase, rebaseTimestamp_comp]

theorem rebaseMoment_comp (a b : Nat) (m : VideoMoment) :
    rebaseMoment b (rebaseMoment a m) = rebaseMoment (a + b) m := by
  simp only [rebaseMoment, rebaseTimestamp_comp, List.map_map, VideoMoment.mk.injEq,
    true_and, and_true]
  apply List.map_congr_left
  intro d _
  simp only [Function.comp_apply]
  exact rebasePhrase_comp a b d

/-- C8: the timestamp-rebasing transformation of
`analyze_video_internal` satisfies `rebase 0 m = m` (the
`chunk_start_offset > 0` guard skips the pass entirely), and
`rebase b (rebase a m) = rebase (a + b) m` for all offsets, because
formatting then re-parsing a rebased timestamp is the identity. -/
theorem rebase_offset_algebra (m : VideoMoment) (a b : Nat) :
    rebase 0 m = m ∧ rebase b (rebase a m) = rebase (a + b) m := by
  constructor
  · simp [rebase]
  · rcases Nat.eq_zero_or_pos a with ha | ha
    · subst ha
      simp [rebase]
    · rcases Nat.eq_zero_or_pos b with hb | hb
      · subst hb
        simp [rebase]
      · simp only [rebase, if_pos ha, if_pos hb, if_pos (by omega : 0 < a + b)]
        exact rebaseMoment_comp a b m
/-! ## ai/google.rs: the credential pool

Rust source (`src/ai/google.rs`):
```
struct ClientKey { name: String, value: String, enabled: AtomicBool }

pub struct GoogleClient {
    client: Client,
    api_keys: Vec<Arc<ClientKey>>,
    current_key_index: AtomicUsize,
    model: String,
}

fn get_active_key(&self) -> Option<Arc<ClientKey>> {
    if self.api_keys.is_empty() { return None; }
    let start_index = self.current_key_index.load(Ordering::SeqCst);
    let mut attempts = 0;
    let total_keys = self.api_keys.len();
    loop {
        if attempts >= total_keys { return None; }
        let index = (start_index + attempts) % total_keys;
        let key = &self.api_keys[index];
        if key.enabled.load(Ordering::SeqCst) { return Some(key.clone()); }
        attempts += 1;
    }
}

fn rotate_key(&self) { self.current_key_index.fetch_add(1, Ordering::SeqCst); }

fn disable_key(&self, key_value: &str) {
    if let Some(key) = self.api_keys.iter().find(|k| k.value == key_value) {
        key.enabled.store(false, Ordering::SeqCst);
        ...
    }
    self.rotate_key();
}
```
`get_active_key` reads the pool and the cursor but stores neither, so it
is modelled as a pure function of the client state; the mutating
operations return the updated client state. -/

/-- `ClientKey` from `src/ai/google.rs` (the `AtomicBool` enabled flag
as a plain `Bool` of the current state). -/
structure ClientKey where
  name : String
  value : String
  enabled : Bool
deriving DecidableEq

/-- The pool-relevant state of `GoogleClient`: the key vector and the
rotation cursor `current_key_index`. -/
structure GoogleClient where
  api_keys : List ClientKey
  current_key_index : Nat
deriving DecidableEq

/-- The scan loop of `get_active_key`: `attempts` counts up, the fuel is
the number of attempts still allowed (`total_keys - attempts`). -/
def getActiveKeyAux (keys : List ClientKey) (start : Nat) : Nat → Nat → Option ClientKey
  | _, 0 => none
  | attempts, remaining + 1 =>
    let index := (start + attempts) % keys.length
    match keys.get? index with
    | some k => if k.enabled then some k else getActiveKeyAux keys start (attempts + 1) remaining
    | none => none

/-- `GoogleClient::get_active_key`: scan forward from the cursor with
wraparound, returning the first enabled key, `none` after `total_keys`
unsuccessful inspections.  The cursor is not modified (the function is
pure in the client state). -/
def get_active_key (c : GoogleClient) : Option ClientKey :=
  if c.api_keys.isEmpty then none
  else getActiveKeyAux c.api_keys c.current_key_index 0 c.api_keys.length

/-- `GoogleClient::rotate_key`: advance the cursor by one. -/
def rotate_key (c : GoogleClient) : GoogleClient :=
  { c with current_key_index := c.current_key_index + 1 }

/-- The `iter().find(|k| k.value == key_value)` + `store(false)` part of
`disable_key`: disable the FIRST key whose value matches. -/
def disableFirst (v : String) : List ClientKey → List ClientKey
  | [] => []
  | k :: rest =>
    if k.value = v then { k with enabled := false } :: rest
    else k :: disableFirst v rest

/-- `GoogleClient::disable_key`: disable the first key whose value is
`key_value`, then rotate the cursor. -/
def disable_key (c : GoogleClient) (key_value : String) : GoogleClient :=
  rotate_key { c with api_keys := disableFirst key_value c.api_keys }

/-- The pool mutations that other call sites can apply after a
`disable_key`: more rotations and more disables (nothing in
`google.rs` ever re-enables a key for the remainder of the run). -/
inductive PoolOp where
  | rotate
  | disable (v : String)

/-- Apply a sequence of later pool operations. -/
def applyPoolOps : List PoolOp → GoogleClient → GoogleClient
  | [], c => c
  | PoolOp.rotate :: ops, c => applyPoolOps ops (rotate_key c)
  | PoolOp.disable v :: ops, c => applyPoolOps ops (disable_key c v)
/-- Number of enabled keys in the pool. -/
def countEnabled (keys : List ClientKey) : Nat :=
  (keys.filter (fun k => k.enabled)).length

theorem exists_scan_attempt (len start j : Nat) (hlen : 0 < len) (hj : j < len) :
    ∃ a, a < len ∧ (start + a) % len = j := by
  refine ⟨(len - start % len + j) % len, Nat.mod_lt _ hlen, ?_⟩
  rw [← Nat.mod_add_mod, Nat.add_mod_mod]
  have hs : start % len < len := Nat.mod_lt _ hlen
  have h3 : start % len + (len - start % len + j) = len + j := by omega
  rw [h3, Nat.add_mod_left, Nat.mod_eq_of_lt hj]

theorem getActiveKeyAux_some :
    ∀ (remaining attempts : Nat) (keys : List ClientKey) (start : Nat) (k : ClientKey),
      getActiveKeyAux keys start attempts remaining = some k →
      k ∈ keys ∧ k.enabled = true := by
  intro remaining
  induction remaining with
  | zero =>
      intro attempts keys start k h
      simp [getActiveKeyAux] at h
  | succ rem ih =>
      intro attempts keys start k h
      simp only [getActiveKeyAux] at h
      rcases hidx : keys.get? ((start + attempts) % keys.length) with _ | k0 <;>
        rw [hidx] at h <;> simp only [] at h
      · exact Option.noConfusion h
      · by_cases he : k0.enabled = true
        · rw [if_pos he] at h
          simp only [Option.some_inj] at h
          subst h
          exact ⟨List.get?_mem hidx, he⟩
        · rw [if_neg he] at h
          exact ih (attempts + 1) keys start k h

theorem getActiveKeyAux_none :
    ∀ (remaining attempts : Nat) (keys : List ClientKey) (start : Nat),
      getActiveKeyAux keys start attempts remaining = none →
      ∀ a, a < remaining → ∀ k,
        keys.get? ((start + attempts + a) % keys.length) = some k →
        k.enabled = false := by
  intro remaining
  induction remaining with
  | zero =>
      intro attempts keys start _ a ha
      omega
  | succ rem ih =>
      intro attempts keys start h a ha k hk
      simp only [getActiveKeyAux] at h
      rcases hidx : keys.get? ((start + attempts) % keys.length) with _ | k0 <;>
        rw [hidx] at h <;> simp only [] at h
      · -- the scanned index yields nothing: only possible for the empty pool
        exfalso
        have hlen : keys.length = 0 := by
          by_contra hne
          have h1 : (start + attempts) % keys.length < keys.length :=
            Nat.mod_lt _ (by omega)
          have h2 := List.get?_eq_get h1
          rw [hidx] at h2
          simp at h2
        have hkeys : keys = [] := List.length_eq_zero.mp hlen
        subst hkeys
        simp at hk
      · by_cases he : k0.enabled = true
        · rw [if_pos he] at h
          simp at h
        · rw [if_neg he] at h
          rcases a with _ | a
          · rw [Nat.add_zero] at hk
            rw [hidx] at hk
            simp only [Option.some_inj] at hk
            subst hk
            simpa using he
          · have e : start + (attempts + 1) + a = start + attempts + (a + 1) := by omega
            have := ih (attempts + 1) keys start h a (by omega) k
            rw [e] at this
            exact this hk
theorem getActiveKeyAux_of_all_disabled :
    ∀ (remaining attempts : Nat) (keys : List ClientKey) (start : Nat),
      (∀ k ∈ keys, k.enabled = false) →
      getActiveKeyAux keys start attempts remaining = none := by
  intro remaining
  induction remaining with
  | zero =>
      intro attempts keys start _
      rfl
  | succ rem ih =>
      intro attempts keys start hall
      simp only [getActiveKeyAux]
      rcases hidx : keys.get? ((start + attempts) % keys.length) with _ | k0
      · rfl
      · simp only []
        rw [if_neg (by simp [hall k0 (List.get?_mem hidx)])]
        exact ih (attempts + 1) keys start hall

theorem getActiveKeyAux_first :
    ∀ (remaining attempts : Nat) (keys : List ClientKey) (start : Nat) (k : ClientKey),
      getActiveKeyAux keys start attempts remaining = some k →
      ∃ a, a < remaining ∧
        keys.get? ((start + attempts + a) % keys.length) = some k ∧
        k.enabled = true ∧
        ∀ b, b < a → ∃ kb,
          keys.get? ((start + attempts + b) % keys.length) = some kb ∧
          kb.enabled = false := by
  intro remaining
  induction remaining with
  | zero =>
      intro attempts keys start k h
      simp [getActiveKeyAux] at h
  | succ rem ih =>
      intro attempts keys start k h
      simp only [getActiveKeyAux] at h
      rcases hidx : keys.get? ((start + attempts) % keys.length) with _ | k0 <;>
        rw [hidx] at h <;> simp only [] at h
      · exact Option.noConfusion h
      · by_cases he : k0.enabled = true
        · rw [if_pos he] at h
          simp only [Option.some_inj] at h
          subst h
          refine ⟨0, by omega, by simpa using hidx, he, ?_⟩
          intro b hb
          omega
        · rw [if_neg he] at h
          obtain ⟨a, ha, hget, hen, hfirst⟩ := ih (attempts + 1) keys start k h
          refine ⟨a + 1, by omega, ?_, hen, ?_⟩
          · have e : start + (attempts + 1) + a = start + attempts + (a + 1) := by omega
            rw [e] at hget
            exact hget
          · intro b hb
            rcases b with _ | b
            · exact ⟨k0, by simpa using hidx, by simpa using he⟩
            · have e : start + (attempts + 1) + b = start + attempts + (b + 1) := by omega
              obtain ⟨kb, hkb, hkben⟩ := hfirst b (by omega)
              rw [e] at hkb
              exact ⟨kb, hkb, hkben⟩

theorem get_active_key_some (c : GoogleClient) (k : ClientKey)
    (h : get_active_key c = some k) : k ∈ c.api_keys ∧ k.enabled = true := by
  simp only [get_active_key] at h
  by_cases hemp : c.api_keys.isEmpty
  · rw [if_pos hemp] at h
    exact Option.noConfusion h
  · rw [if_neg hemp] at h
    exact getActiveKeyAux_some c.api_keys.length 0 c.api_keys c.current_key_index k h

theorem get_active_key_none_iff (c : GoogleClient) :
    get_active_key c = none ↔ ∀ k ∈ c.api_keys, k.enabled = false := by
  constructor
  · intro h k hk
    simp only [get_active_key] at h
    by_cases hemp : c.api_keys.isEmpty
    · rw [List.isEmpty_iff] at hemp
      rw [hemp] at hk
      simp at hk
    · rw [if_neg hemp] at h
      have hlen : 0 < c.api_keys.length :=
        List.length_pos.mpr (by simpa [List.isEmpty_iff] using hemp)
      obtain ⟨j, hj, hget⟩ : ∃ j, j < c.api_keys.length ∧ c.api_keys.get? j = some k := by
        obtain ⟨n, hn⟩ := List.mem_iff_get?.mp hk
        exact ⟨n, by
          by_contra hcon
          push_neg at hcon
          rw [List.get?_eq_none.mpr (by omega)] at hn
          exact Option.noConfusion hn, hn⟩
      obtain ⟨a, ha, hmod⟩ :=
        exists_scan_attempt c.api_keys.length c.current_key_index j hlen hj
      have := getActiveKeyAux_none c.api_keys.length 0 c.api_keys c.current_key_index h
        a ha k
      rw [Nat.add_zero] at this
      rw [hmod] at this
      exact this hget
  · intro hall
    simp only [get_active_key]
    by_cases hemp : c.api_keys.isEmpty
    · rw [if_pos hemp]
    · rw [if_neg hemp]
      exact getActiveKeyAux_of_all_disabled c.api_keys.length 0 c.api_keys
        c.current_key_index hall
/-- `valueDisabled v keys`: every pool entry carrying credential value
`v` is disabled. -/
def valueDisabled (v : String) (keys : List ClientKey) : Prop :=
  ∀ k ∈ keys, k.value = v → k.enabled = false

theorem disableFirst_mem (v : String) :
    ∀ (keys : List ClientKey) (k : ClientKey), k ∈ disableFirst v keys →
      k ∈ keys ∨ ∃ k0 ∈ keys, k0.value = v ∧ k = { k0 with enabled := false } := by
  intro keys
  induction keys with
  | nil =>
      intro k hk
      simp [disableFirst] at hk
  | cons x t ih =>
      intro k hk
      simp only [disableFirst] at hk
      by_cases hv : x.value = v
      · rw [if_pos hv] at hk
        rcases List.mem_cons.mp hk with hk | hk
        · exact Or.inr ⟨x, List.mem_cons_self x t, hv, hk⟩
        · exact Or.inl (List.mem_cons_of_mem x hk)
      · rw [if_neg hv] at hk
        rcases List.mem_cons.mp hk with hk | hk
        · exact Or.inl (hk ▸ List.mem_cons_self x t)
        · rcases ih k hk with hk2 | ⟨k0, hk0, hv0, he⟩
          · exact Or.inl (List.mem_cons_of_mem x hk2)
          · exact Or.inr ⟨k0, List.mem_cons_of_mem x hk0, hv0, he⟩

theorem valueDisabled_disableFirst (v w : String) (keys : List ClientKey)
    (h : valueDisabled v keys) : valueDisabled v (disableFirst w keys) := by
  intro k hk hv
  rcases disableFirst_mem w keys k hk with hk2 | ⟨k0, _, _, he⟩
  · exact h k hk2 hv
  · subst he
    rfl

theorem disableFirst_establishes (v : String) :
    ∀ (keys : List ClientKey), (keys.map (fun k => k.value)).Nodup →
      valueDisabled v (disableFirst v keys) := by
  intro keys
  induction keys with
  | nil =>
      intro _ k hk
      simp [disableFirst] at hk
  | cons x t ih =>
      intro hnd k hk hv
      simp only [List.map_cons, List.nodup_cons] at hnd
      simp only [disableFirst] at hk
      by_cases hxv : x.value = v
      · rw [if_pos hxv] at hk
        rcases List.mem_cons.mp hk with hk | hk
        · subst hk
          rfl
        · exfalso
          apply hnd.1
          rw [hxv, ← hv]
          exact List.mem_map_of_mem (fun k => k.value) hk
      · rw [if_neg hxv] at hk
        rcases List.mem_cons.mp hk with hk | hk
        · subst hk
          exact absurd hv hxv
        · exact ih hnd.2 k hk hv

theorem applyPoolOps_valueDisabled (v : String) :
    ∀ (ops : List PoolOp) (c : GoogleClient), valueDisabled v c.api_keys →
      valueDisabled v (applyPoolOps ops c).api_keys := by
  intro ops
  induction ops with
  | nil =>
      intro c h
      exact h
  | cons op ops ih =>
      intro c h
      rcases op with _ | w
      · exact ih (rotate_key c) h
      · exact ih (disable_key c w) (valueDisabled_disableFirst v w c.api_keys h)

/-- C6 (amended): `get_active_key` scans forward from the cursor with
wraparound and returns the first enabled entry (witnessed by a scan
distance `a` below which every inspected entry is disabled); it returns
`none` exactly when every entry is disabled, after at most one
inspection of each entry (the scan loop is bounded by `total_keys`), and
it does not modify the cursor (it is a pure function of the client
state).  PROVIDED the credential values in the pool are pairwise
distinct, once `disable_key v` has run, no later `get_active_key` —
after any further sequence of rotations and disables — ever returns a
credential with value `v`.  (Without distinctness this fails:
`disable_key` disables only the FIRST entry whose value matches, see the
counterexample.) -/
theorem get_active_key_pool_invariants (c : GoogleClient) (v : String)
    (hnd : (c.api_keys.map (fun k => k.value)).Nodup) :
    (∀ k, get_active_key c = some k →
      ∃ a, a < c.api_keys.length ∧
        c.api_keys.get? ((c.current_key_index + a) % c.api_keys.length) = some k ∧
        k.enabled = true ∧
        ∀ b, b < a → ∃ kb,
          c.api_keys.get? ((c.current_key_index + b) % c.api_keys.length) = some kb ∧
          kb.enabled = false) ∧
    (get_active_key c = none ↔ ∀ k ∈ c.api_keys, k.enabled = false) ∧
    (∀ (ops : List PoolOp) (k : ClientKey),
      get_active_key (applyPoolOps ops (disable_key c v)) = some k →
      k.value ≠ v) := by
  refine ⟨?_, get_active_key_none_iff c, ?_⟩
  · intro k h
    simp only [get_active_key] at h
    by_cases hemp : c.api_keys.isEmpty
    · rw [if_pos hemp] at h
      exact Option.noConfusion h
    · rw [if_neg hemp] at h
      obtain ⟨a, ha, hget, hen, hfirst⟩ :=
        getActiveKeyAux_first c.api_keys.length 0 c.api_keys c.current_key_index k h
      rw [Nat.add_zero] at hget
      refine ⟨a, ha, hget, hen, ?_⟩
      intro b hb
      obtain ⟨kb, hkb, hkben⟩ := hfirst b hb
      rw [Nat.add_zero] at hkb
      exact ⟨kb, hkb, hkben⟩
  · intro ops k h hv
    have h0 : valueDisabled v (disable_key c v).api_keys :=
      disableFirst_establishes v c.api_keys hnd
    have h1 : valueDisabled v (applyPoolOps ops (disable_key c v)).api_keys :=
      applyPoolOps_valueDisabled v ops (disable_key c v) h0
    obtain ⟨hmem, hen⟩ := get_active_key_some _ k h
    have := h1 k hmem hv
    rw [this] at hen
    exact Bool.noConfusion hen

/-- A two-entry pool whose credentials share the same value `"k"`:
`disable_key "k"` can then only ever disable the first entry. -/
def dupPool : GoogleClient :=
  { api_keys := [⟨"A", "k", true⟩, ⟨"B", "k", true⟩], current_key_index := 0 }

/-- C6 counterexample: in `dupPool`, after `disable_key "k"` has run,
`get_active_key` still returns a credential whose value is the disabled
`"k"` — `disable_key` only disables the first entry with a matching
value, so with duplicated credential values the claim "after disable(x),
get_active never returns x again" fails. -/
theorem get_active_key_returns_disabled_value :
    (get_active_key (disable_key dupPool ("k"))).map (fun k => k.value) = some ("k") := by
  decide

/-- A two-entry pool with distinct credential values, used to witness
`get_active_key_pool_invariants`. -/
def distinctPool : GoogleClient :=
  { api_keys := [⟨"A", "k1", true⟩, ⟨"B", "k2", true⟩], current_key_index := 0 }

/-- Witness for `get_active_key_pool_invariants` at `distinctPool`:
after disabling `"k1"`, the key returned by `get_active_key` (namely
`⟨B, k2⟩`) does not carry value `"k1"`. -/
theorem get_active_key_pool_invariants_witness :
    (⟨"B", "k2", true⟩ : ClientKey).value ≠ "k1" :=
  (get_active_key_pool_invariants distinctPool ("k1") (by decide)).2.2 []
    ⟨"B", "k2", true⟩ (by decide)
/-! ## ai/google.rs: the sticky per-chunk retry loop

Rust source (`src/ai/google.rs`), abbreviated:
```
pub async fn process_chunk<F>(&self, file_path, chunk_start_offset, status_callback)
    -> Result<Vec<VideoMoment>> {
    loop {
        let key_arc = self.get_active_key()
            .ok_or_else(|| anyhow!("No active API keys available"))?;
        status_callback(format!("Uploading with {}...", key_name));
        let file_uri = match self.upload_video_internal(&key_arc, file_path).await {
            Ok(uri) => uri,
            Err(e) => { self.rotate_key(); continue; }
        };
        status_callback(format!("Analyzing with {}...", key_name));
        match self.analyze_video_internal(&key_arc, &file_uri, chunk_start_offset).await {
            Ok(moments) => { self.rotate_key(); return Ok(moments); }
            Err(e) => {
                let is_quota = e.contains("quota") || e.contains("429")
                    || e.contains("RESOURCE_EXHAUSTED");
                if is_quota {
                    self.disable_key(&key_arc.value);
                    status_callback(format!("Key {} exhausted, switching...", key_name));
                    continue;
                } else { self.rotate_key(); continue; }
            }
        }
    }
}
```
The remote service is modelled by a script: one `ChunkScriptStep` per
loop iteration giving the outcome of that iteration's upload, status
polls and analyze call.  Every remote request is recorded as a
`RemoteEvent` tagged with the credential value under which it was
issued, so credential stickiness is visible in the trace.  A script too
short for the run is reported as `ChunkResult.outOfScript` (the Rust
loop would simply keep going). -/

/-- Rust's `str::contains` (substring containment) on character lists. -/
def containsSub : List Char → List Char → Bool
  | [], p => p.isPrefixOf []
  | c :: t, p => if p.isPrefixOf (c :: t) then true else containsSub t p

/-- Rust's `String::contains` for `String` values. -/
def strContains (s pat : String) : Bool := containsSub s.data pat.data

/-- The quota classification in `process_chunk`: the error text contains
`"quota"`, `"429"` or `"RESOURCE_EXHAUSTED"`. -/
def isQuotaMsg (e : String) : Bool :=
  strContains e ("quota") || strContains e ("429") ||
    strContains e ("RESOURCE_EXHAUSTED")

/-- One observable step of `process_chunk`: a remote request tagged with
the credential value whose `key=` query parameter it carries, or a
`status_callback` update. -/
inductive RemoteEvent where
  | upload (keyValue : String)
  | poll (keyValue : String)
  | analyze (keyValue : String)
  | status (msg : String)
deriving DecidableEq

/-- The credential a remote request is issued under (`none` for pure
status-callback events). -/
def eventCredential : RemoteEvent → Option String
  | RemoteEvent.upload v => some v
  | RemoteEvent.poll v => some v
  | RemoteEvent.analyze v => some v
  | RemoteEvent.status _ => none

/-- The scripted remote-service outcome for one iteration of the
`process_chunk` retry loop: the upload result (error message or file
URI), the file states observed by successive status polls, and the
analyze result (raw moments as decoded from JSON, before timestamp
rebasing). -/
structure ChunkScriptStep where
  uploadOutcome : Except String String
  pollStates : List String
  analyzeOutcome : Except String (List VideoMoment)

/-- The `for _ in 0..60` poll loop of `wait_for_file_active`: each
iteration issues one GET under the SAME key, then inspects the observed
state; `i` indexes the scripted states, the fuel starts at 60. -/
def waitLoop (key : ClientKey) (states : List String) :
    Nat → Nat → List RemoteEvent × Except String Unit
  | _, 0 => ([], Except.error ("File processing timed out"))
  | i, fuel + 1 =>
    let st := states.getD i ("PROCESSING")
    let ev := RemoteEvent.poll key.value
    if st = "ACTIVE" then ([ev], Except.ok ())
    else if st = "FAILED" then ([ev], Except.error ("File processing failed"))
    else
      let r := waitLoop key states (i + 1) fuel
      (ev :: r.1, r.2)

/-- `GoogleClient::wait_for_file_active`. -/
def wait_for_file_active (key : ClientKey) (states : List String) :
    List RemoteEvent × Except String Unit :=
  waitLoop key states 0 60

/-- `GoogleClient::upload_video_internal`: issue the upload under `key`,
then wait for the remote file to become `ACTIVE`, polling with the SAME
key. -/
def upload_video_internal (key : ClientKey) (s : ChunkScriptStep) :
    List RemoteEvent × Except String String :=
  let ev := RemoteEvent.upload key.value
  match s.uploadOutcome with
  | Except.error e => ([ev], Except.error e)
  | Except.ok uri =>
    let w := wait_for_file_active key s.pollStates
    match w.2 with
    | Except.ok _ => (ev :: w.1, Except.ok uri)
    | Except.error e => (ev :: w.1, Except.error e)

/-- `GoogleClient::analyze_video_internal`: issue the generateContent
call under `key`; on success the decoded moments are rebased by the
chunk start offset. -/
def analyze_video_internal (key : ClientKey) (chunk_start_offset : Nat)
    (s : ChunkScriptStep) :
    List RemoteEvent × Except String (List VideoMoment) :=
  ([RemoteEvent.analyze key.value],
   match s.analyzeOutcome with
   | Except.ok raw => Except.ok (rebaseMoments chunk_start_offset raw)
   | Except.error e => Except.error e)

/-- The result of `process_chunk`. -/
inductive ChunkResult where
  | ok (moments : List VideoMoment)
  | err (msg : String)
  | outOfScript
deriving DecidableEq

/-- `GoogleClient::process_chunk`: the retry loop, returning the final
client state, the event trace, and the result. -/
def process_chunk :
    GoogleClient → Nat → List ChunkScriptStep →
    GoogleClient × List RemoteEvent × ChunkResult
  | c, _, [] =>
    match get_active_key c with
    | none => (c, [], ChunkResult.err ("No active API keys available"))
    | some _ => (c, [], ChunkResult.outOfScript)
  | c, off, step :: rest =>
    match get_active_key c with
    | none => (c, [], ChunkResult.err ("No active API keys available"))
    | some key =>
      let ev0 := RemoteEvent.status ("Uploading with " ++ key.name ++ "...")
      let up := upload_video_internal key step
      match up.2 with
      | Except.error _ =>
        let r := process_chunk (rotate_key c) off rest
        (r.1, ev0 :: up.1 ++ r.2.1, r.2.2)
      | Except.ok _uri =>
        let ev1 := RemoteEvent.status ("Analyzing with " ++ key.name ++ "...")
        let an := analyze_video_internal key off step
        match an.2 with
        | Except.ok moments =>
          (rotate_key c, ev0 :: up.1 ++ ev1 :: an.1, ChunkResult.ok moments)
        | Except.error e =>
          if isQuotaMsg e then
            let evq := RemoteEvent.status ("Key " ++ key.name ++ " exhausted, switching...")
            let r := process_chunk (disable_key c key.value) off rest
            (r.1, ev0 :: up.1 ++ ev1 :: an.1 ++ evq :: r.2.1, r.2.2)
          else
            let r := process_chunk (rotate_key c) off rest
            (r.1, ev0 :: up.1 ++ ev1 :: an.1 ++ r.2.1, r.2.2)

/-- The events of ONE iteration (attempt) of the `process_chunk` loop
under the selected key `key` and scripted outcome `step`.  The analyze
request's events do not depend on the chunk offset, so it is taken at
offset 0. -/
def attemptTrace (key : ClientKey) (step : ChunkScriptStep) : List RemoteEvent :=
  let ev0 := RemoteEvent.status ("Uploading with " ++ key.name ++ "...")
  let up := upload_video_internal key step
  match up.2 with
  | Except.error _ => ev0 :: up.1
  | Except.ok _ =>
    let ev1 := RemoteEvent.status ("Analyzing with " ++ key.name ++ "...")
    let an := analyze_video_internal key 0 step
    match an.2 with
    | Except.ok _ => ev0 :: up.1 ++ ev1 :: an.1
    | Except.error e =>
      if isQuotaMsg e then
        ev0 :: up.1 ++ ev1 :: an.1 ++
          [RemoteEvent.status ("Key " ++ key.name ++ " exhausted, switching...")]
      else
        ev0 :: up.1 ++ ev1 :: an.1
theorem waitLoop_events (key : ClientKey) (states : List String) :
    ∀ (fuel i : Nat), ∀ e ∈ (waitLoop key states i fuel).1,
      e = RemoteEvent.poll key.value := by
  intro fuel
  induction fuel with
  | zero =>
      intro i e he
      simp [waitLoop] at he
  | succ f ih =>
      intro i e he
      simp only [waitLoop] at he
      by_cases h1 : states.getD i ("PROCESSING") = "ACTIVE"
      · rw [if_pos h1] at he
        simpa using he
      · rw [if_neg h1] at he
        by_cases h2 : states.getD i ("PROCESSING") = "FAILED"
        · rw [if_pos h2] at he
          simpa using he
        · rw [if_neg h2] at he
          simp only [List.mem_cons] at he
          rcases he with he | he
          · exact he
          · exact ih (i + 1) e he

theorem upload_video_internal_events (key : ClientKey) (s : ChunkScriptStep) :
    ∀ e ∈ (upload_video_internal key s).1,
      (eventCredential e).getD key.value = key.value := by
  intro e he
  simp only [upload_video_internal] at he
  rcases hu : s.uploadOutcome with msg | uri <;> rw [hu] at he <;> simp only [] at he
  · simp only [List.mem_singleton] at he
    subst he
    rfl
  · rcases hw : (wait_for_file_active key s.pollStates).2 with msg | u <;>
      rw [hw] at he <;> simp only [] at he <;>
      rcases List.mem_cons.mp he with he2 | he2
    · subst he2
      rfl
    · rw [waitLoop_events key s.pollStates 60 0 e he2]
      rfl
    · subst he2
      rfl
    · rw [waitLoop_events key s.pollStates 60 0 e he2]
      rfl

theorem attemptTrace_sticky (key : ClientKey) (step : ChunkScriptStep) :
    (attemptTrace key step).all
      (fun e => (eventCredential e).getD key.value == key.value) = true := by
  rw [List.all_eq_true]
  have hst : ∀ m, ((eventCredential (RemoteEvent.status m)).getD key.value ==
      key.value) = true := by
    intro m
    simp [eventCredential]
  have han : ((eventCredential (RemoteEvent.analyze key.value)).getD key.value ==
      key.value) = true := by
    simp [eventCredential]
  have hupl : ∀ e ∈ (upload_video_internal key step).1,
      ((eventCredential e).getD key.value == key.value) = true := by
    intro e he
    simp [upload_video_internal_events key step e he]
  intro e he
  simp only [attemptTrace, analyze_video_internal] at he
  rcases h2 : (upload_video_internal key step).2 with msg | uri <;>
    rw [h2] at he <;> simp only [] at he
  · rcases List.mem_cons.mp he with he | he
    · subst he
      exact hst _
    · exact hupl e he
  · rcases ha : step.analyzeOutcome with msg | raw <;> rw [ha] at he <;>
      simp only [] at he
    · by_cases hq : isQuotaMsg msg = true
      · rw [if_pos hq] at he
        simp only [List.mem_append, List.mem_cons, List.mem_singleton,
          List.not_mem_nil, or_false, false_or] at he
        rcases he with ((he | he) | he | he) | he
        · subst he
          exact hst _
        · exact hupl e he
        · subst he
          exact hst _
        · subst he
          exact han
        · subst he
          exact hst _
      · rw [if_neg hq] at he
        simp only [List.mem_append, List.mem_cons, List.mem_singleton,
          List.not_mem_nil, or_false, false_or] at he
        rcases he with (he | he) | he | he
        · subst he
          exact hst _
        · exact hupl e he
        · subst he
          exact hst _
        · subst he
          exact han
    · simp only [List.mem_append, List.mem_cons, List.mem_singleton,
        List.not_mem_nil, or_false, false_or] at he
      rcases he with (he | he) | he | he
      · subst he
        exact hst _
      · exact hupl e he
      · subst he
        exact hst _
      · subst he
        exact han
theorem process_chunk_trace_decomposition :
    ∀ (script : List ChunkScriptStep) (c : GoogleClient) (off : Nat),
      ∃ attempts : List (ClientKey × ChunkScriptStep),
        (process_chunk c off script).2.1 =
          (attempts.map (fun p => attemptTrace p.1 p.2)).flatten := by
  intro script
  induction script with
  | nil =>
      intro c off
      refine ⟨[], ?_⟩
      rcases h : get_active_key c with _ | k <;> simp [process_chunk, h]
  | cons step rest ih =>
      intro c off
      rcases h : get_active_key c with _ | key
      · exact ⟨[], by simp [process_chunk, h]⟩
      · rcases h2 : (upload_video_internal key step).2 with msg | uri
        · obtain ⟨as, has⟩ := ih (rotate_key c) off
          refine ⟨(key, step) :: as, ?_⟩
          simp only [process_chunk, h, h2, List.map_cons, List.flatten_cons]
          rw [← has]
          simp [attemptTrace, h2, List.append_assoc]
        · rcases ha : step.analyzeOutcome with msg | raw
          · by_cases hq : isQuotaMsg msg = true
            · obtain ⟨as, has⟩ := ih (disable_key c key.value) off
              refine ⟨(key, step) :: as, ?_⟩
              simp only [process_chunk, h, h2, ha, analyze_video_internal,
                List.map_cons, List.flatten_cons]
              rw [← has]
              simp [attemptTrace, h2, ha, analyze_video_internal, hq,
                List.append_assoc]
            · obtain ⟨as, has⟩ := ih (rotate_key c) off
              refine ⟨(key, step) :: as, ?_⟩
              simp only [process_chunk, h, h2, ha, analyze_video_internal,
                List.map_cons, List.flatten_cons]
              rw [← has]
              simp [attemptTrace, h2, ha, analyze_video_internal, hq,
                List.append_assoc]
          · refine ⟨[(key, step)], ?_⟩
            simp only [process_chunk, h, h2, ha, analyze_video_internal,
              List.map_cons, List.flatten_cons]
            simp [attemptTrace, h2, ha, analyze_video_internal,
              List.append_assoc]

/-- C3: within one attempt of `process_chunk`, a single credential
selected at the start of the attempt is used for all remote steps of
that attempt — the upload, every status poll while waiting for the file
to become active, and the analyze call (first conjunct: every event of
an attempt's trace carries the selected key's value), and every
`process_chunk` run is a concatenation of such single-credential
attempts (second conjunct). -/
theorem process_chunk_sticky_credential :
    (∀ (key : ClientKey) (step : ChunkScriptStep),
      (attemptTrace key step).all
        (fun e => (eventCredential e).getD key.value == key.value) = true) ∧
    (∀ (script : List ChunkScriptStep) (c : GoogleClient) (off : Nat),
      ∃ attempts : List (ClientKey × ChunkScriptStep),
        (process_chunk c off script).2.1 =
          (attempts.map (fun p => attemptTrace p.1 p.2)).flatten) :=
  ⟨attemptTrace_sticky, process_chunk_trace_decomposition⟩
theorem countEnabled_eq_zero (keys : List ClientKey) :
    countEnabled keys = 0 ↔ ∀ k ∈ keys, k.enabled = false := by
  simp only [countEnabled, List.length_eq_zero, List.filter_eq_nil]
  constructor
  · intro h k hk
    have := h k hk
    simpa using this
  · intro h k hk
    simp [h k hk]

theorem get_active_key_of_countEnabled_pos (c : GoogleClient)
    (h : 0 < countEnabled c.api_keys) : ∃ k, get_active_key c = some k := by
  rcases hg : get_active_key c with _ | k
  · exfalso
    have hall := (get_active_key_none_iff c).mp hg
    have := (countEnabled_eq_zero c.api_keys).mpr hall
    omega
  · exact ⟨k, rfl⟩

theorem disableFirst_map_value (v : String) :
    ∀ keys : List ClientKey,
      (disableFirst v keys).map (fun k => k.value) = keys.map (fun k => k.value) := by
  intro keys
  induction keys with
  | nil => rfl
  | cons x t ih =>
      simp only [disableFirst]
      by_cases hv : x.value = v
      · rw [if_pos hv]
        simp
      · rw [if_neg hv]
        simp [ih]

theorem disableFirst_mem_of_ne (v : String) :
    ∀ (keys : List ClientKey) (k : ClientKey), k ∈ keys → k.value ≠ v →
      k ∈ disableFirst v keys := by
  intro keys
  induction keys with
  | nil =>
      intro k hk
      simp at hk
  | cons x t ih =>
      intro k hk hne
      simp only [disableFirst]
      by_cases hv : x.value = v
      · rw [if_pos hv]
        rcases List.mem_cons.mp hk with hk | hk
        · exfalso
          subst hk
          exact hne hv
        · exact List.mem_cons_of_mem _ hk
      · rw [if_neg hv]
        rcases List.mem_cons.mp hk with hk | hk
        · subst hk
          exact List.mem_cons_self _ _
        · exact List.mem_cons_of_mem _ (ih k hk hne)

theorem countEnabled_disableFirst :
    ∀ (keys : List ClientKey) (k : ClientKey),
      (keys.map (fun x => x.value)).Nodup → k ∈ keys → k.enabled = true →
      countEnabled (disableFirst k.value keys) + 1 = countEnabled keys := by
  intro keys
  induction keys with
  | nil =>
      intro k _ hk
      simp at hk
  | cons x t ih =>
      intro k hnd hk he
      simp only [List.map_cons, List.nodup_cons] at hnd
      simp only [disableFirst]
      by_cases hv : x.value = k.value
      · rw [if_pos hv]
        have hxk : x = k := by
          rcases List.mem_cons.mp hk with hk2 | hk2
          · exact hk2.symm
          · exfalso
            apply hnd.1
            rw [hv]
            exact List.mem_map_of_mem (fun y => y.value) hk2
        subst hxk
        simp only [countEnabled, List.filter_cons, he]
        simp
      · rw [if_neg hv]
        have hkt : k ∈ t := by
          rcases List.mem_cons.mp hk with hk2 | hk2
          · exact absurd (hk2 ▸ rfl) hv
          · exact hk2
        have := ih k hnd.2 hkt he
        simp only [countEnabled, List.filter_cons] at *
        by_cases hx : x.enabled = true
        · simp only [hx, if_true]
          simp only [List.length_cons]
          omega
        · simp only [hx]
          simpa using this
/-- C5 (amended): on a quota-classified analyze failure `process_chunk`
disables the selected credential, emits a status update naming it, and
retries the same chunk with the next available credential; PROVIDED the
pool's credential values are pairwise distinct, the quota retry cycle is
bounded by the number of enabled credentials — with every attempt
failing on quota, after at most `countEnabled` attempts the next lookup
finds no active key and `process_chunk` returns the
"No active API keys available" error instead of looping forever, and the
emitted status updates name every initially-enabled credential.
(Without distinct values the bound fails, see the counterexample:
`disable_key` disables only the first value-matching entry, so the
exhausted credential itself can stay enabled forever.) -/
theorem process_chunk_quota_exhaustion :
    ∀ (script : List ChunkScriptStep) (c : GoogleClient) (off : Nat),
      (c.api_keys.map (fun k => k.value)).Nodup →
      (∀ s ∈ script,
        (∀ k, ∃ uri, (upload_video_internal k s).2 = Except.ok uri) ∧
        ∃ e, s.analyzeOutcome = Except.error e ∧ isQuotaMsg e = true) →
      countEnabled c.api_keys ≤ script.length →
      (process_chunk c off script).2.2 =
        ChunkResult.err ("No active API keys available") ∧
      (∀ k ∈ c.api_keys, k.enabled = true →
        RemoteEvent.status ("Key " ++ k.name ++ " exhausted, switching...") ∈
          (process_chunk c off script).2.1) := by
  intro script
  induction script with
  | nil =>
      intro c off hnd hscript hlen
      have hzero : countEnabled c.api_keys = 0 := by
        simpa using hlen
      have hall := (countEnabled_eq_zero c.api_keys).mp hzero
      have hnone : get_active_key c = none := (get_active_key_none_iff c).mpr hall
      constructor
      · simp [process_chunk, hnone]
      · intro k hk he
        rw [hall k hk] at he
        exact Bool.noConfusion he
  | cons step rest ih =>
      intro c off hnd hscript hlen
      by_cases hcnt : countEnabled c.api_keys = 0
      · have hall := (countEnabled_eq_zero c.api_keys).mp hcnt
        have hnone : get_active_key c = none := (get_active_key_none_iff c).mpr hall
        constructor
        · simp [process_chunk, hnone]
        · intro k hk he
          rw [hall k hk] at he
          exact Bool.noConfusion he
      · obtain ⟨key, hg⟩ := get_active_key_of_countEnabled_pos c (by omega)
        obtain ⟨hkmem, hken⟩ := get_active_key_some c key hg
        obtain ⟨hupOk, e, he, hq⟩ := hscript step (List.mem_cons_self step rest)
        obtain ⟨uri, hu2⟩ := hupOk key
        have hc2nd : ((disable_key c key.value).api_keys.map
            (fun k => k.value)).Nodup := by
          simp only [disable_key, rotate_key]
          rw [disableFirst_map_value]
          exact hnd
        have hc2cnt : countEnabled (disable_key c key.value).api_keys + 1 =
            countEnabled c.api_keys := by
          simp only [disable_key, rotate_key]
          exact countEnabled_disableFirst c.api_keys key hnd hkmem hken
        have hc2len : countEnabled (disable_key c key.value).api_keys ≤
            rest.length := by
          simp only [List.length_cons] at hlen
          omega
        have hrestscript : ∀ s ∈ rest,
            (∀ k, ∃ uri, (upload_video_internal k s).2 = Except.ok uri) ∧
            ∃ e, s.analyzeOutcome = Except.error e ∧ isQuotaMsg e = true :=
          fun s hs => hscript s (List.mem_cons_of_mem step hs)
        obtain ⟨ihres, ihstatus⟩ :=
          ih (disable_key c key.value) off hc2nd hrestscript hc2len
        constructor
        · simp only [process_chunk, hg, hu2, he, analyze_video_internal,
            if_pos hq]
          exact ihres
        · intro k hk hke
          simp only [process_chunk, hg, hu2, he, analyze_video_internal,
            if_pos hq]
          by_cases hkk : k = key
          · subst hkk
            apply List.mem_append_right
            exact List.mem_cons_self _ _
          · have hkv : k.value ≠ key.value := by
              intro hveq
              exact hkk (List.inj_on_of_nodup_map hnd hk hkmem hveq)
            have hk2 : k ∈ (disable_key c key.value).api_keys := by
              simp only [disable_key, rotate_key]
              exact disableFirst_mem_of_ne key.value c.api_keys k hk hkv
            have := ihstatus k hk2 hke
            apply List.mem_append_right
            exact List.mem_cons_of_mem _ this
/-- A scripted iteration whose upload succeeds immediately and whose
analyze call fails with a quota-classified error. -/
def quotaStep : ChunkScriptStep :=
  { uploadOutcome := Except.ok ("uri")
    pollStates := [("ACTIVE")]
    analyzeOutcome := Except.error ("429 RESOURCE_EXHAUSTED: quota") }

/-- C5 counterexample: in `dupPool` (two credentials sharing value
`"k"`, pool size 2), three successive all-quota attempts do NOT end in
the "no active keys" error — the loop is still retrying
(`outOfScript`) and one credential is still enabled, because
`disable_key` keeps disabling the first entry with the matching value
while the selected second entry stays enabled.  This refutes the claim
that the quota retry cycle is bounded by the pool size. -/
theorem process_chunk_dup_values_unbounded :
    (process_chunk dupPool 0 [quotaStep, quotaStep, quotaStep]).2.2 =
      ChunkResult.outOfScript ∧
    countEnabled (process_chunk dupPool 0
      [quotaStep, quotaStep, quotaStep]).1.api_keys = 1 := by
  decide

/-- Witness for `process_chunk_quota_exhaustion` at `distinctPool` with
two all-quota scripted attempts: the run ends with the pool-exhausted
error. -/
theorem process_chunk_quota_exhaustion_witness :
    (process_chunk distinctPool 0 [quotaStep, quotaStep]).2.2 =
      ChunkResult.err ("No active API keys available") :=
  (process_chunk_quota_exhaustion [quotaStep, quotaStep] distinctPool 0
    (by decide)
    (by
      intro s hs
      have hsq : s = quotaStep := by
        rcases List.mem_cons.mp hs with h | h
        · exact h
        · simpa using h
      subst hsq
      exact ⟨fun k => ⟨"uri", rfl⟩, "429 RESOURCE_EXHAUSTED: quota", rfl,
        by decide⟩)
    (by decide)).1
/-- C10: rebasing never fails on unparsable timestamps.  A moment or
dialogue timestamp that does not parse as three colon-separated
integers is treated as 0 seconds by `unwrap_or(0)` and silently replaced
by the chunk start offset rendered as `HH:MM:SS`; the analyze step still
succeeds, and `process_chunk` still returns the (rebased) moments. -/
theorem rebase_unparsable_timestamp (m : VideoMoment) (d : DialoguePhrase)
    (off : Nat)
    (hm : parse_timestamp_to_seconds m.start_time = none)
    (hd : parse_timestamp_to_seconds d.start_time = none)
    (hpos : 0 < off) (hlt : off < U64) :
    (rebase off m).start_time = format_seconds_to_timestamp off ∧
    (rebasePhrase off d).start_time = format_seconds_to_timestamp off ∧
    (∀ (key : ClientKey) (s : ChunkScriptStep) (raw : List VideoMoment),
      s.analyzeOutcome = Except.ok raw →
      (analyze_video_internal key off s).2 = Except.ok (rebaseMoments off raw)) ∧
    (∀ (c : GoogleClient) (key : ClientKey) (s : ChunkScriptStep)
      (rest : List ChunkScriptStep) (raw : List VideoMoment) (uri : String),
      get_active_key c = some key →
      (upload_video_internal key s).2 = Except.ok uri →
      s.analyzeOutcome = Except.ok raw →
      (process_chunk c off (s :: rest)).2.2 = ChunkResult.ok (rebaseMoments off raw)) := by
  refine ⟨?_, ?_, ?_, ?_⟩
  · simp [rebase, if_pos hpos, rebaseMoment, rebaseTimestamp, hm,
      Nat.mod_eq_of_lt hlt]
  · simp [rebasePhrase, rebaseTimestamp, hd, Nat.mod_eq_of_lt hlt]
  · intro key s raw h
    simp [analyze_video_internal, h]
  · intro c key s rest raw uri hg hu hraw
    simp [process_chunk, hg, hu, analyze_video_internal, hraw]

/-- A moment whose start timestamp `02:33` has only two
colon-separated parts and therefore fails to parse. -/
def exBadMoment : VideoMoment :=
  { start_time := ['0', '2', ':', '3', '3']
    end_time := ['0', '0', ':', '0', '3', ':', '0', '1']
    category := []
    description := []
    dialogue := [] }

/-- A dialogue phrase whose start timestamp fails to parse (fractional
seconds are not three colon-separated integers). -/
def exBadPhrase : DialoguePhrase :=
  { start_time := ['0', '2', ':', '3', '3', '.', '5']
    end_time := ['0', '0', ':', '0', '3', ':', '0', '1']
    phrase := [] }

/-- Witness for `rebase_unparsable_timestamp` at offset 1800 and the
unparsable `02:33`: the rebased start time is `00:30:00`. -/
theorem rebase_unparsable_timestamp_witness :
    (rebase 1800 exBadMoment).start_time = format_seconds_to_timestamp 1800 :=
  (rebase_unparsable_timestamp exBadMoment exBadPhrase 1800 (by decide)
    (by decide) (by decide) (by decide)).1
/-! ## main.rs: the dispatcher loop of `run_processing`

Rust source (`src/main.rs`, lines 954-1062), abbreviated:
```
let mut chunks_analyzed = 0;
for (i, chunk) in video_chunks.iter().enumerate() {
    if cancellation_token.load(Ordering::Relaxed) {
        ... // status + log messages
        return Ok((Vec::new(), None));            // line 966
    }
    match ai_client.process_chunk(...).await {
        Ok(moments) => {
            chunks_analyzed += 1;
            all_moments.extend(moments);
            save_session(&temp_json_path, &url, &all_moments, &temp_dir)?;
        }
        Err(e) => {
            if e.contains("No active API keys available")
                || e.contains("API Keys Exhausted") {
                tx.send(AppMessage::Error("API Keys Exhausted during analysis."));
                break;
            } else { /* warn, continue */ }
        }
    }
}
if all_moments.is_empty() && chunks_analyzed < video_chunks.len() {
    ... // fallback: download_high_res exactly once
    return Ok((Vec::new(), Some(config.default_output_dir.clone())));  // line 1054
}
save_session(...)?;                                // line 1058
... // clip extraction etc., finally Ok((all_moments, Some(shorts_dir)))
```
`all_moments` starts from the (possibly resumed) session and is saved to
the session file before the loop (line 815), so the loop invariant
`session = all_moments` holds throughout.  The clip-extraction tail
after line 1058 is outside the claims under verification and is
represented by the explicit `proceedsToExtraction` return; the two
modelled `return` statements (cancellation, fallback) are the ones the
claims are about.  File and network I/O that the Rust propagates with
`?` is modelled as succeeding. -/

/-- The outcome of `process_chunk` for one chunk, as observed by the
dispatcher. -/
inductive ChunkOutcome where
  | ok (moments : List VideoMoment)
  | err (msg : String)
deriving DecidableEq

/-- The `break` condition of the dispatcher's `Err` arm.  -/
def exhaustsKeys (msg : String) : Bool :=
  strContains msg ("No active API keys available") ||
    strContains msg ("API Keys Exhausted")

/-- Whether an outcome makes the dispatcher loop break. -/
def breaksLoop : ChunkOutcome → Bool
  | ChunkOutcome.ok _ => false
  | ChunkOutcome.err m => exhaustsKeys m

/-- The dispatcher's loop state: accumulated moments, the moments
currently persisted in the session file, the `chunks_analyzed` counter,
and the `AppMessage::Error` payloads sent so far. -/
structure LoopState where
  all_moments : List VideoMoment
  session : List VideoMoment
  analyzed : Nat
  errors : List String
deriving DecidableEq

/-- How the dispatcher loop ended. -/
inductive LoopExit where
  | cancelledExit
  | finished
deriving DecidableEq

/-- The `for (i, chunk)` loop: `i` is the current chunk index, the
second argument counts the chunks still to process. -/
def chunkLoop (cancelled : Nat → Bool) (outcome : Nat → ChunkOutcome) :
    Nat → Nat → LoopState → LoopState × LoopExit
  | _, 0, st => (st, LoopExit.finished)
  | i, n + 1, st =>
    if cancelled i then (st, LoopExit.cancelledExit)
    else
      match outcome i with
      | ChunkOutcome.ok ms =>
        let all := st.all_moments ++ ms
        chunkLoop cancelled outcome (i + 1) n
          { all_moments := all, session := all, analyzed := st.analyzed + 1,
            errors := st.errors }
      | ChunkOutcome.err msg =>
        if exhaustsKeys msg then
          ({ st with
              errors := st.errors ++ ["API Keys Exhausted during analysis."] },
            LoopExit.finished)
        else
          chunkLoop cancelled outcome (i + 1) n st

/-- The value `run_processing` returns in the modelled region: the early
cancellation return, the post-fallback return, or control proceeding to
the clip-extraction tail with the accumulated moments. -/
inductive DispatchReturn where
  | cancelledReturn (moments : List VideoMoment) (outDir : Option String)
  | fallbackReturn (moments : List VideoMoment) (outDir : Option String)
  | proceedsToExtraction (all : List VideoMoment)
deriving DecidableEq

/-- The observable outcome of the analysis phase of `run_processing`:
the return value, the session-file contents, the number of
`download_high_res` fallback invocations, and the error messages sent. -/
structure DispatchResult where
  ret : DispatchReturn
  session : List VideoMoment
  downloadCalls : Nat
  errors : List String
deriving DecidableEq

/-- The analysis phase of `run_processing`: the chunk loop followed by
the fallback check, starting from `init` (the moments of a resumed
session, `[]` for a fresh run), with the initial session save of
line 815 already performed. -/
def run_processing_analysis (init : List VideoMoment) (numChunks : Nat)
    (cancelled : Nat → Bool) (outcome : Nat → ChunkOutcome)
    (outputDir : String) : DispatchResult :=
  let st0 : LoopState :=
    { all_moments := init, session := init, analyzed := 0, errors := [] }
  let r := chunkLoop cancelled outcome 0 numChunks st0
  match r.2 with
  | LoopExit.cancelledExit =>
    { ret := DispatchReturn.cancelledReturn [] none, session := r.1.session,
      downloadCalls := 0, errors := r.1.errors }
  | LoopExit.finished =>
    if r.1.all_moments.isEmpty = true ∧ r.1.analyzed < numChunks then
      { ret := DispatchReturn.fallbackReturn [] (some outputDir),
        session := r.1.session, downloadCalls := 1, errors := r.1.errors }
    else
      { ret := DispatchReturn.proceedsToExtraction r.1.all_moments,
        session := r.1.all_moments, downloadCalls := 0, errors := r.1.errors }

/-- The moments contributed by the successful chunks among chunks
`i, i+1, ..., i+d-1`. -/
def okRange (outcome : Nat → ChunkOutcome) : Nat → Nat → List VideoMoment
  | _, 0 => []
  | i, d + 1 =>
    (match outcome i with
     | ChunkOutcome.ok ms => ms
     | ChunkOutcome.err _ => []) ++ okRange outcome (i + 1) d
theorem chunkLoop_cancelled (cancelled : Nat → Bool) (outcome : Nat → ChunkOutcome) :
    ∀ (d n i : Nat) (st : LoopState), d < n →
      cancelled (i + d) = true →
      (∀ e, e < d → cancelled (i + e) = false ∧ breaksLoop (outcome (i + e)) = false) →
      st.session = st.all_moments →
      (chunkLoop cancelled outcome i n st).2 = LoopExit.cancelledExit ∧
      (chunkLoop cancelled outcome i n st).1.session =
        st.all_moments ++ okRange outcome i d ∧
      (chunkLoop cancelled outcome i n st).1.errors = st.errors := by
  intro d
  induction d with
  | zero =>
      intro n i st hn hc _ hses
      obtain ⟨m, rfl⟩ : ∃ m, n = m + 1 := ⟨n - 1, by omega⟩
      rw [Nat.add_zero] at hc
      simp only [chunkLoop, hc, if_true]
      simp [okRange, hses]
  | succ e ihd =>
      intro n i st hn hc hprev hses
      obtain ⟨m, rfl⟩ : ∃ m, n = m + 1 := ⟨n - 1, by omega⟩
      obtain ⟨hci, hbi⟩ := hprev 0 (by omega)
      rw [Nat.add_zero] at hci hbi
      simp only [chunkLoop, hci]
      rw [if_neg (by simp : ¬(false = true))]
      have hshift : ∀ x, i + 1 + x = i + (x + 1) := by omega
      rcases ho : outcome i with ms | msg
      · simp only []
        have hc2 : cancelled (i + 1 + e) = true := by
          rw [hshift]
          exact hc
        have hprev2 : ∀ x, x < e →
            cancelled (i + 1 + x) = false ∧
            breaksLoop (outcome (i + 1 + x)) = false := by
          intro x hx
          rw [hshift]
          exact hprev (x + 1) (by omega)
        obtain ⟨h1, h2, h3⟩ := ihd m (i + 1)
          { all_moments := st.all_moments ++ ms,
            session := st.all_moments ++ ms,
            analyzed := st.analyzed + 1, errors := st.errors }
          (by omega) hc2 hprev2 rfl
        refine ⟨h1, ?_, h3⟩
        rw [h2]
        simp only [okRange, ho]
        simp [List.append_assoc]
      · rw [ho] at hbi
        simp only [breaksLoop] at hbi
        simp only [ho, hbi]
        rw [if_neg (by simp : ¬(false = true))]
        have hc2 : cancelled (i + 1 + e) = true := by
          rw [hshift]
          exact hc
        have hprev2 : ∀ x, x < e →
            cancelled (i + 1 + x) = false ∧
            breaksLoop (outcome (i + 1 + x)) = false := by
          intro x hx
          rw [hshift]
          exact hprev (x + 1) (by omega)
        obtain ⟨h1, h2, h3⟩ := ihd m (i + 1) st (by omega) hc2 hprev2 hses
        refine ⟨h1, ?_, h3⟩
        rw [h2]
        simp only [okRange, ho]
        simp [List.append_assoc]

/-- C2 (amended): when the CancellationFlag is observed set at the check
before starting chunk `k` (all earlier chunks ran uncancelled and did
not break the loop), the pipeline stops and returns the NON-ERROR value
`Ok((Vec::new(), None))` — an EMPTY moments list, not the accumulated
moments — while the persisted session file contains exactly the initial
moments plus the moments of every previously completed chunk. -/
theorem run_processing_cancellation (init : List VideoMoment)
    (numChunks k : Nat) (cancelled : Nat → Bool) (outcome : Nat → ChunkOutcome)
    (outDir : String) (hk : k < numChunks) (hc : cancelled k = true)
    (hprev : ∀ e, e < k → cancelled e = false ∧ breaksLoop (outcome e) = false) :
    (run_processing_analysis init numChunks cancelled outcome outDir).ret =
      DispatchReturn.cancelledReturn [] none ∧
    (run_processing_analysis init numChunks cancelled outcome outDir).session =
      init ++ okRange outcome 0 k := by
  obtain ⟨h1, h2, h3⟩ := chunkLoop_cancelled cancelled outcome k numChunks 0
    { all_moments := init, session := init, analyzed := 0, errors := [] }
    hk (by simpa using hc) (by simpa using hprev) rfl
  simp only [run_processing_analysis, h1]
  constructor
  · trivial
  · simpa using h2
/-- A concrete moment for the dispatcher scenarios. -/
def exMoment : VideoMoment :=
  { start_time := ['0', '0', ':', '0', '5', ':', '2', '0']
    end_time := ['0', '0', ':', '0', '6', ':', '1', '0']
    category := ['F', 'u', 'n', 'n', 'y']
    description := []
    dialogue := [] }

/-- Cancellation observed from chunk 1 on (chunk 0 runs normally). -/
def exCancelled (i : Nat) : Bool := decide (1 ≤ i)

/-- Chunk 0 finds `exMoment`; later chunks find nothing. -/
def exOutcome (i : Nat) : ChunkOutcome :=
  if i = 0 then ChunkOutcome.ok [exMoment] else ChunkOutcome.ok []

/-- C2 counterexample: in a 3-chunk run where chunk 0 succeeds with one
moment and the CancellationFlag is observed before chunk 1, the pipeline
returns `Ok((Vec::new(), None))` — the EMPTY list — while the session
file holds chunk 0's moment; the returned moments are NOT the
accumulated ones, refuting the claim that the cancellation return
carries the accumulated moments. -/
theorem run_processing_cancellation_counterexample :
    (run_processing_analysis [] 3 exCancelled exOutcome ("out")).ret =
      DispatchReturn.cancelledReturn [] none ∧
    (run_processing_analysis [] 3 exCancelled exOutcome ("out")).session =
      [exMoment] ∧
    ([] : List VideoMoment) ≠ [exMoment] := by
  decide

/-- Witness for `run_processing_cancellation` at the same concrete run:
cancellation observed before chunk 1 after chunk 0 completed. -/
theorem run_processing_cancellation_witness :
    (run_processing_analysis [] 3 exCancelled exOutcome ("out")).ret =
      DispatchReturn.cancelledReturn [] none ∧
    (run_processing_analysis [] 3 exCancelled exOutcome ("out")).session =
      [] ++ okRange exOutcome 0 1 :=
  run_processing_cancellation [] 3 1 exCancelled exOutcome ("out")
    (by decide) (by decide)
    (by
      intro e he
      interval_cases e
      exact ⟨by decide, by decide⟩)

theorem chunkLoop_breaks (cancelled : Nat → Bool) (outcome : Nat → ChunkOutcome) :
    ∀ (d n i : Nat) (st : LoopState), d < n →
      (∀ e, e < d → cancelled (i + e) = false ∧
        ∃ m, outcome (i + e) = ChunkOutcome.err m ∧ exhaustsKeys m = false) →
      cancelled (i + d) = false →
      (∃ m, outcome (i + d) = ChunkOutcome.err m ∧ exhaustsKeys m = true) →
      chunkLoop cancelled outcome i n st =
        ({ st with
            errors := st.errors ++ ["API Keys Exhausted during analysis."] },
          LoopExit.finished) := by
  intro d
  induction d with
  | zero =>
      intro n i st hn hprev hc hbreak
      obtain ⟨m, rfl⟩ : ∃ m, n = m + 1 := ⟨n - 1, by omega⟩
      rw [Nat.add_zero] at hc hbreak
      obtain ⟨msg, ho, hex⟩ := hbreak
      simp only [chunkLoop, hc]
      rw [if_neg (by simp : ¬(false = true))]
      simp only [ho, hex, if_true]
  | succ e ihd =>
      intro n i st hn hprev hc hbreak
      obtain ⟨m, rfl⟩ : ∃ m, n = m + 1 := ⟨n - 1, by omega⟩
      obtain ⟨hci, msg0, ho0, hex0⟩ := hprev 0 (by omega)
      rw [Nat.add_zero] at hci ho0
      simp only [chunkLoop, hci]
      rw [if_neg (by simp : ¬(false = true))]
      simp only [ho0, hex0]
      rw [if_neg (by simp : ¬(false = true))]
      have hshift : ∀ x, i + 1 + x = i + (x + 1) := by omega
      apply ihd m (i + 1) st (by omega)
      · intro x hx
        rw [hshift]
        exact hprev (x + 1) (by omega)
      · rw [hshift]
        exact hc
      · rw [hshift]
        exact hbreak

/-- C7 (amended): when every credential is exhausted before any chunk
succeeds in a fresh run (every chunk before the break fails with a
non-exhaustion error, chunk `k` fails with the pool-exhausted message,
nothing was cancelled), the dispatcher emits the
"API Keys Exhausted during analysis." error message, invokes the
fallback full-fidelity download EXACTLY ONCE, and returns the NON-ERROR
value `Ok((Vec::new(), Some(output_dir)))` — there is no `PoolExhausted`
error return. -/
theorem run_processing_pool_exhaustion (numChunks k : Nat)
    (cancelled : Nat → Bool) (outcome : Nat → ChunkOutcome) (outDir : String)
    (hk : k < numChunks)
    (hprev : ∀ e, e < k → cancelled e = false ∧
      ∃ m, outcome e = ChunkOutcome.err m ∧ exhaustsKeys m = false)
    (hc : cancelled k = false)
    (hbreak : ∃ m, outcome k = ChunkOutcome.err m ∧ exhaustsKeys m = true) :
    (run_processing_analysis [] numChunks cancelled outcome outDir).ret =
      DispatchReturn.fallbackReturn [] (some outDir) ∧
    (run_processing_analysis [] numChunks cancelled outcome outDir).downloadCalls
      = 1 ∧
    (run_processing_analysis [] numChunks cancelled outcome outDir).errors =
      ["API Keys Exhausted during analysis."] ∧
    (run_processing_analysis [] numChunks cancelled outcome outDir).session =
      [] := by
  have hloop := chunkLoop_breaks cancelled outcome k numChunks 0
    { all_moments := [], session := [], analyzed := 0, errors := [] }
    hk (by simpa using hprev) (by simpa using hc) (by simpa using hbreak)
  simp only [run_processing_analysis, hloop]
  have hcond : (([] : List VideoMoment).isEmpty = true ∧ 0 < numChunks) := by
    exact ⟨rfl, by omega⟩
  rw [if_pos hcond]
  simp
/-- Every chunk fails with the pool-exhausted error message. -/
def exPoolOutcome (_ : Nat) : ChunkOutcome :=
  ChunkOutcome.err ("No active API keys available")

/-- The CancellationFlag is never set. -/
def exNoCancel (_ : Nat) : Bool := false

/-- C7 counterexample: in a fresh 1-chunk run where the only chunk fails
with "No active API keys available", the fallback download is invoked
exactly once, but the pipeline's return value is the NON-ERROR
`Ok((Vec::new(), Some(output_dir)))` of the fallback path — not a
`PoolExhausted` error (no such error value is ever returned to the
caller; the exhaustion is only signalled as an emitted error message). -/
theorem run_processing_pool_exhaustion_counterexample :
    (run_processing_analysis [] 1 exNoCancel exPoolOutcome ("out")).ret =
      DispatchReturn.fallbackReturn [] (some ("out")) ∧
    (run_processing_analysis [] 1 exNoCancel exPoolOutcome ("out")).downloadCalls
      = 1 ∧
    (run_processing_analysis [] 1 exNoCancel exPoolOutcome ("out")).errors =
      ["API Keys Exhausted during analysis."] := by
  decide

/-- Witness for `run_processing_pool_exhaustion` at the same concrete
1-chunk run. -/
theorem run_processing_pool_exhaustion_witness :
    (run_processing_analysis [] 1 exNoCancel exPoolOutcome ("out")).session =
      [] :=
  (run_processing_pool_exhaustion 1 0 exNoCancel exPoolOutcome ("out")
    (by decide)
    (by
      intro e he
      omega)
    (by decide)
    ⟨"No active API keys available", rfl, by decide⟩).2.2.2
/-! ## main.rs: `save_session` and the file-system write model

Rust source (`src/main.rs`):
```
fn save_session(path: &str, url: &str, moments: &[VideoMoment], temp_dir: &str)
    -> Result<()> {
    let state = SessionState {
        youtube_url: url.to_string(),
        moments: moments.to_vec(),
        temp_dir: temp_dir.to_string(),
    };
    let json = serde_json::to_string_pretty(&state)?;
    fs::write(path, json)?;
    Ok(())
}
```
`fs::write` opens the target with truncation and writes the bytes in
place; there is no temporary file and no rename anywhere in the
function.  The serialized JSON is abstracted as the `serialized`
argument; what is modelled is the sequence of file-system operations and
what an interruption part-way through a write leaves on disk. -/

/-- A primitive file-system operation: an in-place (non-atomic) whole
file write, or an atomic rename. -/
inductive FsOp where
  | writeFile (path : String) (content : String)
  | renameFile (src dst : String)
deriving DecidableEq

/-- The file-system operations `save_session` performs for a session
state whose serialized form is `serialized`: a single direct `fs::write`
to the target path. -/
def save_session_ops (path : String) (serialized : String) : List FsOp :=
  [FsOp.writeFile path serialized]

/-- A file system: contents by path. -/
def FileSys := String → Option String

/-- Complete execution of one operation. -/
def applyOp (fs : FileSys) : FsOp → FileSys
  | FsOp.writeFile p c => fun q => if q = p then some c else fs q
  | FsOp.renameFile src dst => fun q =>
      if q = dst then fs src else if q = src then none else fs q

/-- Complete execution of a sequence of operations. -/
def runOps (fs : FileSys) : List FsOp → FileSys
  | [] => fs
  | op :: ops => runOps (applyOp fs op) ops

/-- The file system seen if execution stops `k` bytes into an
operation: a `writeFile` in flight has truncated the target and written
only the first `k` bytes; a rename is atomic, so an interrupted rename
has simply not happened. -/
def applyPartial (fs : FileSys) : FsOp → Nat → FileSys
  | FsOp.writeFile p c, k =>
      fun q => if q = p then some (String.mk (c.data.take k)) else fs q
  | FsOp.renameFile _ _, _ => fs

/-- The file system after being interrupted `k` bytes into operation
`i` of the sequence (operations before `i` have completed). -/
def runInterrupted (fs : FileSys) (ops : List FsOp) (i k : Nat) : FileSys :=
  match ops.get? i with
  | some op => applyPartial (runOps fs (ops.take i)) op k
  | none => runOps fs ops

/-- A file system holding a previously valid session file. -/
def sessionFs : FileSys := fun p =>
  if p = "session.json" then some ("OLDDATA") else none

/-- C4 counterexample: `save_session` writes the target with one direct
`fs::write`; interrupting that write 3 bytes in leaves `"NEW"` at the
target — neither the previously valid contents `"OLDDATA"` nor the
complete new serialization `"NEWDATA!"` — so a crash mid-save CAN leave
the session file at the target path corrupted, refuting the
write-then-rename (atomic) claim. -/
theorem save_session_not_atomic :
    runInterrupted sessionFs (save_session_ops ("session.json") ("NEWDATA!"))
      0 3 ("session.json") = some ("NEW") ∧
    ("NEW" : String) ≠ "OLDDATA" ∧ ("NEW" : String) ≠ "NEWDATA!" := by
  decide

/-- C4 (amended): `save_session` serializes the session state and
performs a SINGLE direct `fs::write` to the target path — it never
renames (first conjunct: no rename operation occurs in its op
sequence); a completed save leaves the full serialization at the target
(second conjunct), but an interruption `k` bytes into the write leaves
exactly the `k`-byte prefix of the new serialization there (third
conjunct), so the save is not atomic and a previously valid session
file can be corrupted by a crash mid-write. -/
theorem save_session_write_behavior (path serialized : String) (fs : FileSys)
    (k : Nat) :
    ((save_session_ops path serialized).all (fun op =>
      match op with
      | FsOp.writeFile _ _ => true
      | FsOp.renameFile _ _ => false) = true) ∧
    runOps fs (save_session_ops path serialized) path = some serialized ∧
    runInterrupted fs (save_session_ops path serialized) 0 k path =
      some (String.mk (serialized.data.take k)) := by
  refine ⟨rfl, ?_, ?_⟩
  · simp [save_session_ops, runOps, applyOp]
  · simp [save_session_ops, runInterrupted, applyPartial]
